import Mathlib

/-!
Verification of the pomaar polarimetric MIMO array tools.

The 2D synthesizer (`PoarimetricArraySynthesizer` in `array_synthesizer.py`)
is modelled with rational coordinates: positions are pairs of rationals,
physical/virtual arrays are lists of positions, and the numpy broadcast
`tx[:, None, :] + rx[None, :, :]` followed by `reshape(-1, 2)` is the
tx-major, rx-minor list of elementwise sums.  The 1D designer
(`PolarimetricMIMO` in `mimo_designer.py`) is modelled with scalar rational
positions.  Python `dict`/`set` state is modelled by lists with `dedup`,
and `sorted` by `List.insertionSort` under the corresponding total order;
both analyzers sort their results, which makes the modelled outputs
canonical.  A separate model with positions of arbitrary dimension
(`RawSynth`) captures what `set_arrays` does with malformed input,
including numpy's failure modes: the inhomogeneous-shape error of
`np.array` on ragged rows at input receipt, the broadcast error on
incompatible row lengths, and the reshape error when the flattened
broadcast sum has odd size.
-/

namespace Pomaar

/-- The four virtual polarimetric channel tags. -/
inductive Chan
  | hh
  | vv
  | hv
  | vh
deriving DecidableEq, Repr

/-- A 2D position (units of half wavelength), one row of an (N, 2) array. -/
abbrev Pos2 := ℚ × ℚ

/-- State of `PoarimetricArraySynthesizer`: four physical arrays and the four
derived virtual arrays. -/
structure Synth where
  tx_h : List Pos2
  tx_v : List Pos2
  rx_h : List Pos2
  rx_v : List Pos2
  v_hh : List Pos2
  v_vv : List Pos2
  v_hv : List Pos2
  v_vh : List Pos2
deriving DecidableEq, Repr

/-- Model of `np.array(l) if len(l) > 0 else np.empty((0, 2))` from `set_arrays`:
a nonempty list is stored as is, an empty one is normalized to the empty
(0, 2) array, which in this model is the empty list. -/
def storeArr (l : List Pos2) : List Pos2 :=
  if l.length > 0 then l else []

/-- Helper `convolve` from `_compute_virtual`:
`(tx[:, None, :] + rx[None, :, :]).reshape(-1, 2) if tx.size and rx.size
else np.empty((0, 2))` — the tx-major, rx-minor elementwise sums. -/
def convolve (tx rx : List Pos2) : List Pos2 :=
  if tx.length ≠ 0 ∧ rx.length ≠ 0 then
    tx.flatMap fun t => rx.map fun r => (t.1 + r.1, t.2 + r.2)
  else []

/-- Method `set_arrays` together with the `_compute_virtual` call it makes: stores
the four physical arrays and recomputes the four virtual channels. -/
def set_arrays (txh txv rxh rxv : List Pos2) : Synth :=
  { tx_h := storeArr txh
    tx_v := storeArr txv
    rx_h := storeArr rxh
    rx_v := storeArr rxv
    v_hh := convolve (storeArr txh) (storeArr rxh)
    v_vv := convolve (storeArr txv) (storeArr rxv)
    v_hv := convolve (storeArr txh) (storeArr rxv)
    v_vh := convolve (storeArr txv) (storeArr rxh) }

/-- Modelled from the spec: the spec's description of the synthesis
algorithm, "for every element `t` in the transmit set and every element `r`
in the receive set (iterated tx-major, rx-minor, preserving input order),
emit `t + r`" — the cartesian product with elementwise vector addition.
Used only to compare the source's `convolve` against the spec's wording. -/
def specVirtual (tx rx : List Pos2) : List Pos2 :=
  (tx.product rx).map fun z => (z.1.1 + z.2.1, z.1.2 + z.2.2)

/-- The hard-coded grid resolution `resolution = 1e-2` of
`analyze_calibration_overlaps`. -/
def resolution : ℚ := 1 / 100

/-- Binning `np.floor(position / resolution).astype(int)` for one 2D position. -/
def binPos (p : Pos2) : ℤ × ℤ :=
  (⌊p.1 / resolution⌋, ⌊p.2 / resolution⌋)

/-- The channel iteration order
`[("hh", v_hh), ("vv", v_vv), ("hv", v_hv), ("vh", v_vh)]`. -/
def channelList (s : Synth) : List (Chan × List Pos2) :=
  [(Chan.hh, s.v_hh), (Chan.vv, s.v_vv), (Chan.hv, s.v_hv), (Chan.vh, s.v_vh)]

/-- The positions of one virtual channel. -/
def chanPositions (s : Synth) : Chan → List Pos2
  | Chan.hh => s.v_hh
  | Chan.vv => s.v_vv
  | Chan.hv => s.v_hv
  | Chan.vh => s.v_vh

/-- Replace the position sequence of one virtual channel, leaving the rest
of the state unchanged. -/
def updateChan (s : Synth) : Chan → List Pos2 → Synth
  | Chan.hh, l => { s with v_hh := l }
  | Chan.vv, l => { s with v_vv := l }
  | Chan.hv, l => { s with v_hv := l }
  | Chan.vh, l => { s with v_vh := l }

/-- Every (binned position, channel tag) pair fed into `occupied_bins`. -/
def taggedBins (s : Synth) : List ((ℤ × ℤ) × Chan) :=
  (channelList s).flatMap fun e => e.2.map fun p => (binPos p, e.1)

/-- The keys of the `occupied_bins` dict: each occupied cell once. -/
def binKeys (s : Synth) : List (ℤ × ℤ) :=
  ((taggedBins s).map Prod.fst).dedup

/-- The set of channel tags recorded at one cell of `occupied_bins`,
as a duplicate-free list. -/
def binChans (s : Synth) (k : ℤ × ℤ) : List Chan :=
  (((taggedBins s).filter fun e => e.1 = k).map Prod.snd).dedup

/-- Test whether the hh,vv pair or the hv,vh pair is a subset of the recorded
channel set, as in the source's any-issubset check. -/
def isCalibSet (cs : List Chan) : Bool :=
  decide (Chan.hh ∈ cs ∧ Chan.vv ∈ cs) || decide (Chan.hv ∈ cs ∧ Chan.vh ∈ cs)

/-- Coordinate `[coord * resolution for coord in position]`: the quantized corner
coordinate reported for a cell. -/
def realCoord (k : ℤ × ℤ) : Pos2 :=
  ((k.1 : ℚ) * resolution, (k.2 : ℚ) * resolution)

/-- Occupied cells hosting at least two distinct channels. -/
def overlapKeys (s : Synth) : List (ℤ × ℤ) :=
  (binKeys s).filter fun k => 2 ≤ (binChans s k).length

/-- Overlap cells classified as calibration overlaps. -/
def calibKeys (s : Synth) : List (ℤ × ℤ) :=
  (overlapKeys s).filter fun k => isCalibSet (binChans s k)

/-- Overlap cells classified as redundant overlaps. -/
def redKeys (s : Synth) : List (ℤ × ℤ) :=
  (overlapKeys s).filter fun k => !isCalibSet (binChans s k)

/-- Python `sorted` compares 2-element coordinate lists lexicographically:
x first, then y. -/
def pairLe (a b : Pos2) : Prop :=
  a.1 < b.1 ∨ (a.1 = b.1 ∧ a.2 ≤ b.2)

instance : DecidableRel pairLe := fun a b => by
  unfold pairLe
  infer_instance

/-- Python `sorted` on a list of 2D coordinates. -/
def sortPairs (l : List Pos2) : List Pos2 :=
  l.insertionSort pairLe

/-- Method `analyze_calibration_overlaps`: the sorted calibration and redundant
overlap coordinate lists. -/
def analyze_calibration_overlaps (s : Synth) : List Pos2 × List Pos2 :=
  (sortPairs ((calibKeys s).map realCoord), sortPairs ((redKeys s).map realCoord))

/-!
Raw model of `set_arrays` for malformed input: positions of arbitrary
dimension.  `np.array` of a list of rows fails at input receipt when the
rows have unequal lengths (inhomogeneous shape); a list of equal-length
rows gives an (N, d) array.  The broadcast `tx[:, None, :] + rx[None, :, :]`
of an (N, d1) and an (M, d2) array fails unless d1 = d2, d1 = 1 or d2 = 1,
and otherwise yields (N, M, max d1 d2); `reshape(-1, 2)` then flattens the
sums and regroups them in pairs, failing when the flattened size is odd.
-/

/-- Total number of scalar entries of an (N, d) array, `arr.size`. -/
def flatSize (a : List (List ℚ)) : Nat :=
  (a.map List.length).sum

/-- Reshape `(-1, 2)` on a flat list: consecutive pairs. -/
def chunkPairs : List ℚ → List (List ℚ)
  | x :: y :: rest => [x, y] :: chunkPairs rest
  | _ => []

/-- Test that all rows of a nested input list have one common length, as
`np.array` requires of a 2D input. -/
def isRectangular (l : List (List ℚ)) : Bool :=
  match l with
  | [] => true
  | r :: rest => rest.all fun q => q.length = r.length

/-- Model of `np.array(l)` on a nested list: rows of unequal lengths raise a
`ValueError` (inhomogeneous shape) at the call itself. -/
def mkArray (l : List (List ℚ)) : Except String (List (List ℚ)) :=
  if isRectangular l then Except.ok l
  else Except.error "inhomogeneous shape"

/-- Broadcast addition of two rows of lengths d1 and d2 with d1 = d2, d1 = 1
or d2 = 1 (a length-1 row is stretched across the other); only called under
that compatibility check, arbitrary otherwise. -/
def addBroadcast (t r : List ℚ) : List ℚ :=
  if t.length = r.length then List.zipWith (· + ·) t r
  else if t.length = 1 then r.map fun x => t.headI + x
  else if r.length = 1 then t.map fun x => x + r.headI
  else []

/-- Helper `convolve` on raw rectangular arrays: numpy raises a broadcast
`ValueError` when the row lengths are incompatible, then a reshape
`ValueError` when the flattened size of the broadcast sums is odd;
otherwise the sums are regrouped in pairs. -/
def convolveRaw (tx rx : List (List ℚ)) : Except String (List (List ℚ)) :=
  if flatSize tx ≠ 0 ∧ flatSize rx ≠ 0 then
    if tx.headI.length = rx.headI.length ∨ tx.headI.length = 1 ∨ rx.headI.length = 1 then
      if (tx.flatMap fun t => rx.flatMap fun r => addBroadcast t r).length % 2 = 0 then
        Except.ok (chunkPairs (tx.flatMap fun t => rx.flatMap fun r => addBroadcast t r))
      else Except.error "cannot reshape array"
    else Except.error "could not broadcast"
  else Except.ok []

/-- State of `PoarimetricArraySynthesizer` on raw input. -/
structure RawSynth where
  tx_h : List (List ℚ)
  tx_v : List (List ℚ)
  rx_h : List (List ℚ)
  rx_v : List (List ℚ)
  v_hh : List (List ℚ)
  v_vv : List (List ℚ)
  v_hv : List (List ℚ)
  v_vh : List (List ℚ)
deriving DecidableEq, Repr

/-- Model of `np.array(l) if len(l) > 0 else np.empty((0, 2))` on raw input:
the `np.array` call can itself fail on ragged rows. -/
def storeRaw (l : List (List ℚ)) : Except String (List (List ℚ)) :=
  if l.length > 0 then mkArray l else Except.ok []

/-- Method `_compute_virtual` on raw stored arrays: computes the four virtual
channels in source order (hh, vv, hv, vh), propagating the first runtime
error. -/
def computeVirtualRaw (th tv rh rv : List (List ℚ)) : Except String RawSynth :=
  match convolveRaw th rh, convolveRaw tv rv, convolveRaw th rv, convolveRaw tv rh with
  | Except.ok hh, Except.ok vv, Except.ok hv, Except.ok vh =>
      Except.ok ⟨th, tv, rh, rv, hh, vv, hv, vh⟩
  | Except.error e, _, _, _ => Except.error e
  | _, Except.error e, _, _ => Except.error e
  | _, _, Except.error e, _ => Except.error e
  | _, _, _, Except.error e => Except.error e

/-- Method `set_arrays` on raw input: stores the four inputs in source order
(tx_h, tx_v, rx_h, rx_v), failing at input receipt on a ragged one, then
recomputes the virtual channels. -/
def set_arraysRaw (a b c d : List (List ℚ)) : Except String RawSynth :=
  match storeRaw a, storeRaw b, storeRaw c, storeRaw d with
  | Except.ok th, Except.ok tv, Except.ok rh, Except.ok rv => computeVirtualRaw th tv rh rv
  | Except.error e, _, _, _ => Except.error e
  | _, Except.error e, _, _ => Except.error e
  | _, _, Except.error e, _ => Except.error e
  | _, _, _, Except.error e => Except.error e

/-!
Model of the 1D designer `PolarimetricMIMO` from `mimo_designer.py`.
-/

/-- State of `PolarimetricMIMO`: scalar positions. -/
structure Mimo where
  tx_h : List ℚ
  tx_v : List ℚ
  rx_h : List ℚ
  rx_v : List ℚ
  v_hh : List ℚ
  v_vv : List ℚ
  v_hv : List ℚ
  v_vh : List ℚ
deriving DecidableEq, Repr

/-- Broadcast `(tx[:, None] + rx).flatten() if len(tx) and len(rx) else np.array([])`. -/
def convolve1 (tx rx : List ℚ) : List ℚ :=
  if tx.length ≠ 0 ∧ rx.length ≠ 0 then
    tx.flatMap fun t => rx.map fun r => t + r
  else []

/-- Method `PolarimetricMIMO.set_arrays` with its `_compute_virtual` call. -/
def set_arrays1 (a b c d : List ℚ) : Mimo :=
  ⟨a, b, c, d, convolve1 a c, convolve1 b d, convolve1 a d, convolve1 b c⟩

/-- Rounding `np.round` to an integer: round half to even. -/
def roundHalfEven (x : ℚ) : ℤ :=
  if x - ⌊x⌋ < 1 / 2 then ⌊x⌋
  else if 1 / 2 < x - ⌊x⌋ then ⌊x⌋ + 1
  else if 2 ∣ ⌊x⌋ then ⌊x⌋ else ⌊x⌋ + 1

/-- Rounding `np.round(v, 2)`: round half to even at two decimal places. -/
def round2 (q : ℚ) : ℚ :=
  (roundHalfEven (q * 100) : ℚ) / 100

/-- Method `PolarimetricMIMO.analyze_calibration_overlaps`:
`sorted(set(np.round(v_hv, 2)) & set(np.round(v_vh, 2)))`. -/
def analyze1 (s : Mimo) : List ℚ :=
  (((s.v_hv.map round2).dedup).filter fun x =>
      x ∈ (s.v_vh.map round2).dedup).insertionSort (· ≤ ·)

/-- Scenario A of the spec: every physical set is the single origin point. -/
def demoA : Synth :=
  set_arrays [(0, 0)] [(0, 0)] [(0, 0)] [(0, 0)]

/-- A state with an HH/HV coincidence only (a redundant overlap). -/
def demoB : Synth :=
  set_arrays [(0, 0)] [] [(1, 0)] [(1, 0)]

/-- A 1D state with a single HV/VH coincidence at the origin. -/
def demoM : Mimo :=
  set_arrays1 [0] [0] [0] [0]

/-! Basic facts about the order used by `sorted` and about `resolution`. -/

theorem resolution_pos : 0 < resolution := by
  norm_num [resolution]

theorem resolution_ne_zero : resolution ≠ 0 :=
  ne_of_gt resolution_pos

instance : IsTrans Pos2 pairLe := by
  constructor
  rintro a b c (h₁ | ⟨h₁, h₁'⟩) (h₂ | ⟨h₂, h₂'⟩)
  · exact Or.inl (h₁.trans h₂)
  · exact Or.inl (h₂ ▸ h₁)
  · exact Or.inl (h₁ ▸ h₂)
  · exact Or.inr ⟨h₁.trans h₂, h₁'.trans h₂'⟩

instance : IsTotal Pos2 pairLe := by
  constructor
  intro a b
  rcases lt_trichotomy a.1 b.1 with h | h | h
  · exact Or.inl (Or.inl h)
  · rcases le_total a.2 b.2 with h' | h'
    · exact Or.inl (Or.inr ⟨h, h'⟩)
    · exact Or.inr (Or.inr ⟨h.symm, h'⟩)
  · exact Or.inr (Or.inl h)

instance : IsAntisymm Pos2 pairLe := by
  constructor
  rintro a b (h₁ | ⟨h₁, h₁'⟩) (h₂ | ⟨h₂, h₂'⟩)
  · exact absurd h₂ (not_lt_of_lt h₁)
  · exact absurd h₁ (h₂ ▸ lt_irrefl _)
  · exact absurd h₂ (h₁ ▸ lt_irrefl _)
  · exact Prod.ext h₁ (le_antisymm h₁' h₂')

theorem sortPairs_sorted (l : List Pos2) : List.Sorted pairLe (sortPairs l) :=
  List.sorted_insertionSort pairLe l

theorem sortPairs_perm (l : List Pos2) : List.Perm (sortPairs l) l :=
  List.perm_insertionSort pairLe l

theorem sortPairs_eq_of_perm {l₁ l₂ : List Pos2} (h : List.Perm l₁ l₂) :
    sortPairs l₁ = sortPairs l₂ :=
  List.eq_of_perm_of_sorted ((sortPairs_perm l₁).trans (h.trans (sortPairs_perm l₂).symm))
    (sortPairs_sorted l₁) (sortPairs_sorted l₂)

theorem mem_sortPairs {l : List Pos2} {x : Pos2} : x ∈ sortPairs l ↔ x ∈ l :=
  (sortPairs_perm l).mem_iff

theorem sortPairs_nodup {l : List Pos2} (h : l.Nodup) : (sortPairs l).Nodup :=
  ((sortPairs_perm l).nodup_iff).mpr h

theorem realCoord_injective : Function.Injective realCoord := by
  intro a b h
  rw [realCoord, realCoord, Prod.mk.injEq] at h
  obtain ⟨h₁, h₂⟩ := h
  have e₁ : (a.1 : ℚ) = b.1 := mul_right_cancel₀ resolution_ne_zero h₁
  have e₂ : (a.2 : ℚ) = b.2 := mul_right_cancel₀ resolution_ne_zero h₂
  exact Prod.ext (by exact_mod_cast e₁) (by exact_mod_cast e₂)

/-! Characterizations of the binning data. -/

theorem taggedBins_eq (s : Synth) :
    taggedBins s
      = (s.v_hh.map fun p => (binPos p, Chan.hh))
        ++ (s.v_vv.map fun p => (binPos p, Chan.vv))
        ++ (s.v_hv.map fun p => (binPos p, Chan.hv))
        ++ (s.v_vh.map fun p => (binPos p, Chan.vh)) := by
  simp [taggedBins, channelList]

theorem mem_taggedBins {s : Synth} {k : ℤ × ℤ} {c : Chan} :
    (k, c) ∈ taggedBins s ↔ ∃ p ∈ chanPositions s c, binPos p = k := by
  cases c <;>
    simp [taggedBins_eq, chanPositions, List.mem_append, List.mem_map, Prod.ext_iff,
      and_comm, eq_comm]

theorem binKeys_nodup (s : Synth) : (binKeys s).Nodup :=
  List.nodup_dedup _

theorem binChans_nodup (s : Synth) (k : ℤ × ℤ) : (binChans s k).Nodup :=
  List.nodup_dedup _

theorem mem_binKeys {s : Synth} {k : ℤ × ℤ} :
    k ∈ binKeys s ↔ ∃ c, (k, c) ∈ taggedBins s := by
  constructor
  · intro h
    rw [binKeys, List.mem_dedup, List.mem_map] at h
    obtain ⟨e, he, hek⟩ := h
    subst hek
    exact ⟨e.2, by rwa [Prod.mk.eta]⟩
  · rintro ⟨c, hc⟩
    rw [binKeys, List.mem_dedup, List.mem_map]
    exact ⟨(k, c), hc, rfl⟩

theorem mem_binChans {s : Synth} {k : ℤ × ℤ} {c : Chan} :
    c ∈ binChans s k ↔ (k, c) ∈ taggedBins s := by
  constructor
  · intro h
    rw [binChans, List.mem_dedup, List.mem_map] at h
    obtain ⟨e, he, hec⟩ := h
    rw [List.mem_filter] at he
    have hk : e.1 = k := by simpa using he.2
    rw [← hec, ← hk, Prod.mk.eta]
    exact he.1
  · intro h
    rw [binChans, List.mem_dedup, List.mem_map]
    exact ⟨(k, c), List.mem_filter.mpr ⟨h, by simp⟩, rfl⟩

theorem isCalibSet_iff {cs : List Chan} :
    isCalibSet cs = true
      ↔ ((Chan.hh ∈ cs ∧ Chan.vv ∈ cs) ∨ (Chan.hv ∈ cs ∧ Chan.vh ∈ cs)) := by
  simp [isCalibSet]

theorem mem_calibKeys {s : Synth} {k : ℤ × ℤ} :
    k ∈ calibKeys s
      ↔ k ∈ binKeys s ∧ 2 ≤ (binChans s k).length ∧ isCalibSet (binChans s k) = true := by
  rw [calibKeys, List.mem_filter, overlapKeys, List.mem_filter]
  simp only [decide_eq_true_eq, and_assoc]

theorem mem_redKeys {s : Synth} {k : ℤ × ℤ} :
    k ∈ redKeys s
      ↔ k ∈ binKeys s ∧ 2 ≤ (binChans s k).length ∧ isCalibSet (binChans s k) = false := by
  rw [redKeys, List.mem_filter, overlapKeys, List.mem_filter]
  simp only [decide_eq_true_eq, Bool.not_eq_true', and_assoc]

theorem calibKeys_nodup (s : Synth) : (calibKeys s).Nodup :=
  ((binKeys_nodup s).filter _).filter _

theorem redKeys_nodup (s : Synth) : (redKeys s).Nodup :=
  ((binKeys_nodup s).filter _).filter _

theorem mem_analyze_fst {s : Synth} {x : Pos2} :
    x ∈ (analyze_calibration_overlaps s).1 ↔ ∃ k ∈ calibKeys s, realCoord k = x := by
  rw [analyze_calibration_overlaps]
  simp [mem_sortPairs, List.mem_map]

theorem mem_analyze_snd {s : Synth} {x : Pos2} :
    x ∈ (analyze_calibration_overlaps s).2 ↔ ∃ k ∈ redKeys s, realCoord k = x := by
  rw [analyze_calibration_overlaps]
  simp [mem_sortPairs, List.mem_map]

theorem analyze_fst_nodup (s : Synth) : (analyze_calibration_overlaps s).1.Nodup :=
  sortPairs_nodup ((calibKeys_nodup s).map realCoord_injective)

theorem analyze_snd_nodup (s : Synth) : (analyze_calibration_overlaps s).2.Nodup :=
  sortPairs_nodup ((redKeys_nodup s).map realCoord_injective)

/-! The analysis depends only on which (cell, channel) pairs are occupied. -/

theorem binChans_perm_of_ext {s s' : Synth}
    (h : ∀ k c, (k, c) ∈ taggedBins s ↔ (k, c) ∈ taggedBins s') (k : ℤ × ℤ) :
    List.Perm (binChans s k) (binChans s' k) :=
  (List.perm_ext_iff_of_nodup (binChans_nodup s k) (binChans_nodup s' k)).mpr
    fun c => by rw [mem_binChans, mem_binChans]; exact h k c

theorem isCalibSet_congr {cs cs' : List Chan} (h : ∀ c, c ∈ cs ↔ c ∈ cs') :
    isCalibSet cs = isCalibSet cs' := by
  have h1 : (Chan.hh ∈ cs ∧ Chan.vv ∈ cs) ↔ (Chan.hh ∈ cs' ∧ Chan.vv ∈ cs') := by
    rw [h, h]
  have h2 : (Chan.hv ∈ cs ∧ Chan.vh ∈ cs) ↔ (Chan.hv ∈ cs' ∧ Chan.vh ∈ cs') := by
    rw [h, h]
  simp only [isCalibSet, decide_eq_decide.mpr h1, decide_eq_decide.mpr h2]

theorem analyze_ext {s s' : Synth}
    (h : ∀ k c, (k, c) ∈ taggedBins s ↔ (k, c) ∈ taggedBins s') :
    analyze_calibration_overlaps s = analyze_calibration_overlaps s' := by
  have hperm : ∀ k, List.Perm (binChans s k) (binChans s' k) := binChans_perm_of_ext h
  have hlen : ∀ k, (binChans s k).length = (binChans s' k).length :=
    fun k => (hperm k).length_eq
  have hcal : ∀ k, isCalibSet (binChans s k) = isCalibSet (binChans s' k) :=
    fun k => isCalibSet_congr fun c => (hperm k).mem_iff
  have hkeys : ∀ k, k ∈ binKeys s ↔ k ∈ binKeys s' := by
    intro k
    rw [mem_binKeys, mem_binKeys]
    exact exists_congr fun c => h k c
  have pc : List.Perm (calibKeys s) (calibKeys s') :=
    (List.perm_ext_iff_of_nodup (calibKeys_nodup s) (calibKeys_nodup s')).mpr fun k => by
      rw [mem_calibKeys, mem_calibKeys, hkeys k, hlen k, hcal k]
  have pr : List.Perm (redKeys s) (redKeys s') :=
    (List.perm_ext_iff_of_nodup (redKeys_nodup s) (redKeys_nodup s')).mpr fun k => by
      rw [mem_redKeys, mem_redKeys, hkeys k, hlen k, hcal k]
  rw [analyze_calibration_overlaps, analyze_calibration_overlaps, Prod.mk.injEq]
  exact ⟨sortPairs_eq_of_perm (pc.map realCoord), sortPairs_eq_of_perm (pr.map realCoord)⟩

/-! Facts about the synthesis step. -/

theorem convolve_eq_specVirtual (tx rx : List Pos2) :
    convolve tx rx = specVirtual tx rx := by
  rw [convolve, specVirtual, List.product]
  by_cases h1 : tx.length = 0
  · rw [List.length_eq_zero.mp h1]
    simp
  · by_cases h2 : rx.length = 0
    · rw [List.length_eq_zero.mp h2]
      simp
    · rw [if_pos ⟨h1, h2⟩, List.map_flatMap]
      simp [List.map_map, Function.comp_def]

theorem convolve_length (tx rx : List Pos2) :
    (convolve tx rx).length = tx.length * rx.length := by
  rw [convolve]
  by_cases h1 : tx.length = 0
  · simp [h1]
  · by_cases h2 : rx.length = 0
    · simp [h2]
    · rw [if_pos ⟨h1, h2⟩, List.length_flatMap]
      simp [List.map_map, Function.comp_def, List.map_const']

theorem storeArr_eq (l : List Pos2) : storeArr l = l := by
  rw [storeArr]
  by_cases h : l.length > 0
  · rw [if_pos h]
  · rw [if_neg h]
    have : l.length = 0 := Nat.eq_zero_of_not_pos h
    exact (List.length_eq_zero.mp this).symm

theorem chanPositions_updateChan_same (s : Synth) (c : Chan) (l : List Pos2) :
    chanPositions (updateChan s c l) c = l := by
  cases c <;> rfl

theorem chanPositions_updateChan_other (s : Synth) {c c' : Chan} (l : List Pos2)
    (h : c' ≠ c) : chanPositions (updateChan s c l) c' = chanPositions s c' := by
  cases c <;> cases c' <;> first
    | rfl
    | exact absurd rfl h

/-! Facts about the raw model of `set_arrays`. -/

theorem storeRaw_ok_of_rect {l : List (List ℚ)} (h : isRectangular l = true) :
    ∃ v, storeRaw l = Except.ok v := by
  rw [storeRaw]
  by_cases hl : l.length > 0
  · rw [if_pos hl, mkArray, if_pos h]
    exact ⟨l, rfl⟩
  · rw [if_neg hl]
    exact ⟨[], rfl⟩

theorem convolveRaw_cases (tx rx : List (List ℚ)) :
    (∃ v, convolveRaw tx rx = Except.ok v)
      ∨ convolveRaw tx rx = Except.error "cannot reshape array"
      ∨ convolveRaw tx rx = Except.error "could not broadcast" := by
  unfold convolveRaw
  split_ifs <;> simp

theorem computeVirtualRaw_error {th tv rh rv : List (List ℚ)} {e : String}
    (h : computeVirtualRaw th tv rh rv = Except.error e) :
    e = "cannot reshape array" ∨ e = "could not broadcast" := by
  unfold computeVirtualRaw at h
  rcases convolveRaw_cases th rh with ⟨v1, h1⟩ | h1 | h1 <;>
    rcases convolveRaw_cases tv rv with ⟨v2, h2⟩ | h2 | h2 <;>
      rcases convolveRaw_cases th rv with ⟨v3, h3⟩ | h3 | h3 <;>
        rcases convolveRaw_cases tv rh with ⟨v4, h4⟩ | h4 | h4 <;>
          rw [h1, h2, h3, h4] at h <;>
            first
              | exact Except.noConfusion h
              | (simp only [Except.error.injEq] at h
                 exact Or.inl h.symm)
              | (simp only [Except.error.injEq] at h
                 exact Or.inr h.symm)

theorem set_arraysRaw_error {a b c d : List (List ℚ)} {e : String}
    (ha : isRectangular a = true) (hb : isRectangular b = true)
    (hc : isRectangular c = true) (hd : isRectangular d = true)
    (h : set_arraysRaw a b c d = Except.error e) :
    e = "cannot reshape array" ∨ e = "could not broadcast" := by
  obtain ⟨va, hva⟩ := storeRaw_ok_of_rect ha
  obtain ⟨vb, hvb⟩ := storeRaw_ok_of_rect hb
  obtain ⟨vc, hvc⟩ := storeRaw_ok_of_rect hc
  obtain ⟨vd, hvd⟩ := storeRaw_ok_of_rect hd
  unfold set_arraysRaw at h
  rw [hva, hvb, hvc, hvd] at h
  exact computeVirtualRaw_error h

theorem set_arraysRaw_broadcast_mismatch :
    set_arraysRaw [[0, 0]] [] [[1, 2, 3]] [] = Except.error "could not broadcast" := by
  norm_num [set_arraysRaw, computeVirtualRaw, storeRaw, mkArray, isRectangular,
    convolveRaw, flatSize, addBroadcast]

theorem set_arraysRaw_ragged :
    set_arraysRaw [[0, 0], [1]] [] [] [] = Except.error "inhomogeneous shape" := by
  norm_num [set_arraysRaw, computeVirtualRaw, storeRaw, mkArray, isRectangular,
    convolveRaw, flatSize, addBroadcast]

/-! Facts about the 1D designer model. -/

theorem roundHalfEven_abs_le (x : ℚ) : |x - (roundHalfEven x : ℚ)| ≤ 1 / 2 := by
  have hle : (⌊x⌋ : ℚ) ≤ x := Int.floor_le x
  have hlt : x < (⌊x⌋ : ℚ) + 1 := Int.lt_floor_add_one x
  rw [roundHalfEven]
  split_ifs with h1 h2 h3 <;> rw [abs_le] <;> push_cast <;> constructor <;> linarith

theorem round2_near (q : ℚ) : |q - round2 q| ≤ 1 / 200 := by
  have h := roundHalfEven_abs_le (q * 100)
  rw [round2]
  have heq : q - (roundHalfEven (q * 100) : ℚ) / 100
      = (q * 100 - (roundHalfEven (q * 100) : ℚ)) / 100 := by
    ring
  rw [heq, abs_div]
  have h100 : |(100 : ℚ)| = 100 := by norm_num
  rw [h100]
  linarith

theorem mem_analyze1 {s : Mimo} {x : ℚ} :
    x ∈ analyze1 s
      ↔ ((∃ p ∈ s.v_hv, round2 p = x) ∧ (∃ p ∈ s.v_vh, round2 p = x)) := by
  rw [analyze1]
  simp [List.mem_insertionSort, List.mem_filter, List.mem_dedup, List.mem_map]

theorem analyze1_sorted (s : Mimo) : List.Sorted (· ≤ ·) (analyze1 s) :=
  List.sorted_insertionSort _ _

theorem analyze1_nodup (s : Mimo) : (analyze1 s).Nodup :=
  ((List.perm_insertionSort _ _).nodup_iff).mpr ((List.nodup_dedup _).filter _)

/-! Concrete evaluations of the demo states, used by the witnesses. -/

theorem demoA_eq :
    demoA = ⟨[(0, 0)], [(0, 0)], [(0, 0)], [(0, 0)],
      [(0, 0)], [(0, 0)], [(0, 0)], [(0, 0)]⟩ := by
  norm_num [demoA, set_arrays, storeArr, convolve]

theorem demoA_tagged :
    taggedBins demoA =
      [((0, 0), Chan.hh), ((0, 0), Chan.vv), ((0, 0), Chan.hv), ((0, 0), Chan.vh)] := by
  rw [demoA_eq]
  norm_num [taggedBins, channelList, binPos, resolution]

theorem demoA_binKeys : binKeys demoA = [(0, 0)] := by
  simp only [binKeys, demoA_tagged]
  decide

theorem demoA_binChans :
    binChans demoA (0, 0) = [Chan.hh, Chan.vv, Chan.hv, Chan.vh] := by
  simp only [binChans, demoA_tagged]
  decide

theorem demoA_analyze :
    analyze_calibration_overlaps demoA = ([(0, 0)], []) := by
  have hc : calibKeys demoA = [(0, 0)] := by
    simp only [calibKeys, overlapKeys, binKeys, binChans, demoA_tagged]
    decide
  have hr : redKeys demoA = [] := by
    simp only [redKeys, overlapKeys, binKeys, binChans, demoA_tagged]
    decide
  rw [analyze_calibration_overlaps, hc, hr]
  norm_num [sortPairs, List.insertionSort, List.orderedInsert, realCoord, resolution]

theorem demoB_eq :
    demoB = ⟨[(0, 0)], [], [(1, 0)], [(1, 0)],
      [(1, 0)], [], [(1, 0)], []⟩ := by
  norm_num [demoB, set_arrays, storeArr, convolve]

theorem demoB_tagged :
    taggedBins demoB = [((100, 0), Chan.hh), ((100, 0), Chan.hv)] := by
  rw [demoB_eq]
  norm_num [taggedBins, channelList, binPos, resolution]

theorem demoB_binKeys : binKeys demoB = [(100, 0)] := by
  simp only [binKeys, demoB_tagged]
  decide

theorem demoB_binChans :
    binChans demoB (100, 0) = [Chan.hh, Chan.hv] := by
  simp only [binChans, demoB_tagged]
  decide

theorem demoB_analyze :
    analyze_calibration_overlaps demoB = ([], [(1, 0)]) := by
  have hc : calibKeys demoB = [] := by
    simp only [calibKeys, overlapKeys, binKeys, binChans, demoB_tagged]
    decide
  have hr : redKeys demoB = [(100, 0)] := by
    simp only [redKeys, overlapKeys, binKeys, binChans, demoB_tagged]
    decide
  rw [analyze_calibration_overlaps, hc, hr]
  norm_num [sortPairs, List.insertionSort, List.orderedInsert, realCoord, resolution]

theorem demoM_v_hv : demoM.v_hv = [0] := by
  norm_num [demoM, set_arrays1, convolve1]

theorem demoM_v_vh : demoM.v_vh = [0] := by
  norm_num [demoM, set_arrays1, convolve1]

theorem round2_zero : round2 0 = 0 := by
  norm_num [round2, roundHalfEven]

theorem realCoord_mem_analyze_fst {s : Synth} {k : ℤ × ℤ} :
    realCoord k ∈ (analyze_calibration_overlaps s).1 ↔ k ∈ calibKeys s := by
  rw [mem_analyze_fst]
  constructor
  · rintro ⟨k', hk', he⟩
    exact (realCoord_injective he) ▸ hk'
  · intro h
    exact ⟨k, h, rfl⟩

theorem realCoord_mem_analyze_snd {s : Synth} {k : ℤ × ℤ} :
    realCoord k ∈ (analyze_calibration_overlaps s).2 ↔ k ∈ redKeys s := by
  rw [mem_analyze_snd]
  constructor
  · rintro ⟨k', hk', he⟩
    exact (realCoord_injective he) ▸ hk'
  · intro h
    exact ⟨k, h, rfl⟩

/-! The claims. -/

/-- C1: for every occupied grid cell, if at least two distinct channel tags are
present then the cell's coordinate lands in the calibration sequence exactly
when hh,vv or hv,vh are both present (and then it is absent from the redundant
sequence), in the redundant sequence otherwise (and then absent from the
calibration one); cells with fewer than two distinct tags appear in neither
sequence; both sequences are duplicate-free, so a coordinate appears at most
once. -/
theorem overlap_classification (s : Synth) (k : ℤ × ℤ) (hk : k ∈ binKeys s) :
    (2 ≤ (binChans s k).length →
      (((Chan.hh ∈ binChans s k ∧ Chan.vv ∈ binChans s k) ∨
            (Chan.hv ∈ binChans s k ∧ Chan.vh ∈ binChans s k)) →
          realCoord k ∈ (analyze_calibration_overlaps s).1 ∧
            realCoord k ∉ (analyze_calibration_overlaps s).2) ∧
        (¬((Chan.hh ∈ binChans s k ∧ Chan.vv ∈ binChans s k) ∨
              (Chan.hv ∈ binChans s k ∧ Chan.vh ∈ binChans s k)) →
          realCoord k ∉ (analyze_calibration_overlaps s).1 ∧
            realCoord k ∈ (analyze_calibration_overlaps s).2)) ∧
    ((binChans s k).length < 2 →
      realCoord k ∉ (analyze_calibration_overlaps s).1 ∧
        realCoord k ∉ (analyze_calibration_overlaps s).2) ∧
    (analyze_calibration_overlaps s).1.Nodup ∧
    (analyze_calibration_overlaps s).2.Nodup := by
  refine ⟨fun hlen => ⟨fun hcond => ?_, fun hcond => ?_⟩, fun hlen => ?_,
    analyze_fst_nodup s, analyze_snd_nodup s⟩
  · have ht : isCalibSet (binChans s k) = true := isCalibSet_iff.mpr hcond
    constructor
    · exact realCoord_mem_analyze_fst.mpr (mem_calibKeys.mpr ⟨hk, hlen, ht⟩)
    · intro hmem
      have := (mem_redKeys.mp (realCoord_mem_analyze_snd.mp hmem)).2.2
      rw [ht] at this
      exact Bool.noConfusion this
  · have hf : isCalibSet (binChans s k) = false := by
      rcases Bool.eq_false_or_eq_true (isCalibSet (binChans s k)) with h | h
      · exact absurd (isCalibSet_iff.mp h) hcond
      · exact h
    constructor
    · intro hmem
      have := (mem_calibKeys.mp (realCoord_mem_analyze_fst.mp hmem)).2.2
      rw [hf] at this
      exact Bool.noConfusion this
    · exact realCoord_mem_analyze_snd.mpr (mem_redKeys.mpr ⟨hk, hlen, hf⟩)
  · constructor
    · intro hmem
      have := (mem_calibKeys.mp (realCoord_mem_analyze_fst.mp hmem)).2.1
      omega
    · intro hmem
      have := (mem_redKeys.mp (realCoord_mem_analyze_snd.mp hmem)).2.1
      omega

/-- Witness for C1: in Scenario A all four tags share the origin cell, so its
coordinate is reported in the calibration sequence and not in the redundant
one. -/
theorem overlap_classification_witness :
    realCoord (0, 0) ∈ (analyze_calibration_overlaps demoA).1 ∧
      realCoord (0, 0) ∉ (analyze_calibration_overlaps demoA).2 :=
  ((overlap_classification demoA (0, 0)
        (by rw [demoA_binKeys]; simp)).1
      (by rw [demoA_binChans]; decide)).1
    (by rw [demoA_binChans]; decide)

/-- C2: each synthesized virtual channel equals the tx-major, rx-minor list of
elementwise sums `t + r` over the cartesian product of its transmit and
receive sets, with no element discarded or merged. -/
theorem virtual_cartesian_sum (txh txv rxh rxv : List Pos2) :
    (set_arrays txh txv rxh rxv).v_hh = specVirtual txh rxh ∧
    (set_arrays txh txv rxh rxv).v_vv = specVirtual txv rxv ∧
    (set_arrays txh txv rxh rxv).v_hv = specVirtual txh rxv ∧
    (set_arrays txh txv rxh rxv).v_vh = specVirtual txv rxh := by
  refine ⟨?_, ?_, ?_, ?_⟩ <;> simp only [set_arrays] <;>
    rw [storeArr_eq, storeArr_eq, convolve_eq_specVirtual]

/-- C4: each virtual channel has exactly `len(tx) * len(rx)` elements; in
particular it is empty whenever either source set is, with no error. -/
theorem virtual_channel_lengths (txh txv rxh rxv : List Pos2) :
    (set_arrays txh txv rxh rxv).v_hh.length = txh.length * rxh.length ∧
    (set_arrays txh txv rxh rxv).v_vv.length = txv.length * rxv.length ∧
    (set_arrays txh txv rxh rxv).v_hv.length = txh.length * rxv.length ∧
    (set_arrays txh txv rxh rxv).v_vh.length = txv.length * rxh.length := by
  refine ⟨?_, ?_, ?_, ?_⟩ <;> simp only [set_arrays] <;>
    rw [storeArr_eq, storeArr_eq, convolve_length]

/-- C5: a position is recorded in a cell exactly when the cell key is the
elementwise floor of the position divided by the resolution (floor-based
binning), and the analysis output depends only on which (cell, tag) pairs are
occupied — only channel presence per cell, never multiplicity. -/
theorem floor_binning_presence :
    (∀ (s : Synth) (k : ℤ × ℤ) (c : Chan),
        (k, c) ∈ taggedBins s
          ↔ ∃ p ∈ chanPositions s c, k = (⌊p.1 / resolution⌋, ⌊p.2 / resolution⌋)) ∧
    (∀ s s' : Synth,
        (∀ (k : ℤ × ℤ) (c : Chan), (k, c) ∈ taggedBins s ↔ (k, c) ∈ taggedBins s') →
          analyze_calibration_overlaps s = analyze_calibration_overlaps s') := by
  constructor
  · intro s k c
    rw [mem_taggedBins]
    refine exists_congr fun p => and_congr_right fun _ => ?_
    unfold binPos
    exact eq_comm
  · exact fun s s' h => analyze_ext h

/-- Witness for C5: the origin position of channel HH in Scenario A occupies
cell (0, 0), computed by floor division. -/
theorem floor_binning_presence_witness :
    ((0, 0), Chan.hh) ∈ taggedBins demoA :=
  (floor_binning_presence.1 demoA (0, 0) Chan.hh).mpr
    ⟨(0, 0), by rw [demoA_eq]; simp [chanPositions],
      by norm_num [resolution, Prod.ext_iff]⟩

/-- C6: appending to a channel a position whose cell that channel already
occupies (in particular an exact duplicate) leaves both output sequences of
the analysis unchanged. -/
theorem multiplicity_invariance (s : Synth) (c : Chan) (p : Pos2)
    (h : ∃ q ∈ chanPositions s c, binPos q = binPos p) :
    analyze_calibration_overlaps (updateChan s c (chanPositions s c ++ [p]))
      = analyze_calibration_overlaps s := by
  refine analyze_ext fun k c' => ?_
  rw [mem_taggedBins, mem_taggedBins]
  by_cases hc : c' = c
  · subst hc
    rw [chanPositions_updateChan_same]
    constructor
    · rintro ⟨q, hq, hbq⟩
      rcases List.mem_append.mp hq with hq' | hq'
      · exact ⟨q, hq', hbq⟩
      · have hqp : q = p := by simpa using hq'
        subst hqp
        obtain ⟨q0, hq0, hb0⟩ := h
        exact ⟨q0, hq0, hb0.trans hbq⟩
    · rintro ⟨q, hq, hbq⟩
      exact ⟨q, List.mem_append.mpr (Or.inl hq), hbq⟩
  · rw [chanPositions_updateChan_other _ _ hc]

/-- Witness for C6: duplicating the single HH element of Scenario A does not
change the analysis. -/
theorem multiplicity_invariance_witness :
    analyze_calibration_overlaps
        (updateChan demoA Chan.hh (chanPositions demoA Chan.hh ++ [(0, 0)]))
      = analyze_calibration_overlaps demoA :=
  multiplicity_invariance demoA Chan.hh (0, 0)
    ⟨(0, 0), by rw [demoA_eq]; simp [chanPositions], rfl⟩

/-- C7: every reported coordinate is the quantized corner `cell_key ×
resolution` of an occupied cell, hence an exact integer multiple of the
resolution in each axis. -/
theorem quantized_corner_coordinates (s : Synth) (x : Pos2)
    (hx : x ∈ (analyze_calibration_overlaps s).1 ∨
      x ∈ (analyze_calibration_overlaps s).2) :
    ∃ k : ℤ × ℤ, k ∈ binKeys s ∧ x = realCoord k ∧
      (∃ m : ℤ, x.1 = (m : ℚ) * resolution) ∧ ∃ n : ℤ, x.2 = (n : ℚ) * resolution := by
  rcases hx with hx | hx
  · obtain ⟨k, hk, hkx⟩ := mem_analyze_fst.mp hx
    exact ⟨k, (mem_calibKeys.mp hk).1, hkx.symm,
      ⟨k.1, by rw [← hkx]; simp [realCoord]⟩, ⟨k.2, by rw [← hkx]; simp [realCoord]⟩⟩
  · obtain ⟨k, hk, hkx⟩ := mem_analyze_snd.mp hx
    exact ⟨k, (mem_redKeys.mp hk).1, hkx.symm,
      ⟨k.1, by rw [← hkx]; simp [realCoord]⟩, ⟨k.2, by rw [← hkx]; simp [realCoord]⟩⟩

/-- Witness for C7: the calibration overlap of Scenario A is the corner of an
occupied cell and an integer multiple of the resolution in each axis. -/
theorem quantized_corner_coordinates_witness :
    ∃ k : ℤ × ℤ, k ∈ binKeys demoA ∧ ((0 : ℚ), (0 : ℚ)) = realCoord k ∧
      (∃ m : ℤ, ((0 : ℚ), (0 : ℚ)).1 = (m : ℚ) * resolution) ∧
        ∃ n : ℤ, ((0 : ℚ), (0 : ℚ)).2 = (n : ℚ) * resolution :=
  quantized_corner_coordinates demoA ((0 : ℚ), (0 : ℚ))
    (Or.inl (by rw [demoA_analyze]; simp))

/-- C8: both sequences returned by the analysis are sorted ascending in the
lexicographic order (x first, then y) and contain no duplicate coordinates. -/
theorem outputs_sorted_nodup (s : Synth) :
    List.Sorted pairLe (analyze_calibration_overlaps s).1 ∧
    (analyze_calibration_overlaps s).1.Nodup ∧
    List.Sorted pairLe (analyze_calibration_overlaps s).2 ∧
    (analyze_calibration_overlaps s).2.Nodup :=
  ⟨sortPairs_sorted _, analyze_fst_nodup s, sortPairs_sorted _, analyze_snd_nodup s⟩

/-- C10: after every `set_arrays` call the four virtual-channel fields equal
the cartesian sums of the just-stored physical fields (hh = tx_h + rx_h,
vv = tx_v + rx_v, hv = tx_h + rx_v, vh = tx_v + rx_h), and an empty input
list is stored as the empty array. -/
theorem state_consistency_after_set_arrays (txh txv rxh rxv : List Pos2) :
    ((set_arrays txh txv rxh rxv).v_hh
        = specVirtual (set_arrays txh txv rxh rxv).tx_h (set_arrays txh txv rxh rxv).rx_h) ∧
    ((set_arrays txh txv rxh rxv).v_vv
        = specVirtual (set_arrays txh txv rxh rxv).tx_v (set_arrays txh txv rxh rxv).rx_v) ∧
    ((set_arrays txh txv rxh rxv).v_hv
        = specVirtual (set_arrays txh txv rxh rxv).tx_h (set_arrays txh txv rxh rxv).rx_v) ∧
    ((set_arrays txh txv rxh rxv).v_vh
        = specVirtual (set_arrays txh txv rxh rxv).tx_v (set_arrays txh txv rxh rxv).rx_h) ∧
    storeArr [] = [] := by
  refine ⟨?_, ?_, ?_, ?_, by simp [storeArr]⟩ <;> simp only [set_arrays] <;>
    exact convolve_eq_specVirtual _ _

/-- C3 counterexample: a malformed PhysicalArray whose points have four
components is accepted by `set_arrays` without any validation error, and its
coordinates are silently regrouped into bogus 2D virtual elements — no
validation error is raised and synthesis results are produced. -/
theorem no_validation_counterexample :
    set_arraysRaw [[0, 0, 0, 0]] [] [[1, 2, 3, 4]] []
      = Except.ok ⟨[[0, 0, 0, 0]], [], [[1, 2, 3, 4]], [],
          [[1, 2], [3, 4]], [], [], []⟩ := by
  norm_num [set_arraysRaw, computeVirtualRaw, storeRaw, mkArray, isRectangular,
    convolveRaw, flatSize, chunkPairs, addBroadcast]

/-- C3 (amended): `set_arrays` performs no input validation.  A malformed
PhysicalArray whose points all share one (possibly non-2) dimension is
accepted without any validation error whenever numpy's mechanics allow it,
its coordinates silently coerced into 2D virtual elements; for such
equal-row-length inputs the only errors the call can produce are numpy's
mechanical broadcast and reshape failures, never a check of 2D-ness,
dimensional consistency or finiteness; and the analyzer's resolution is
the hard-coded constant 0.01, not a validated parameter. -/
theorem no_validation_only_mechanical_errors :
    (∀ (a b c d : List (List ℚ)) (e : String),
        isRectangular a = true → isRectangular b = true →
          isRectangular c = true → isRectangular d = true →
            set_arraysRaw a b c d = Except.error e →
              e = "cannot reshape array" ∨ e = "could not broadcast") ∧
      resolution = 1 / 100 :=
  ⟨fun _ _ _ _ _ ha hb hc hd h => set_arraysRaw_error ha hb hc hd h, rfl⟩

/-- Witness for the amended C3: three-component points are rectangular input
and make the flattened coordinate count odd, so the call fails with the
mechanical reshape error, not a validation error. -/
theorem no_validation_only_mechanical_errors_witness :
    ("cannot reshape array" = "cannot reshape array"
        ∨ "cannot reshape array" = "could not broadcast") ∧
      resolution = 1 / 100 :=
  ⟨no_validation_only_mechanical_errors.1 [[0, 0, 0]] [] [[1, 2, 3]] []
      "cannot reshape array" (by decide) (by decide) (by decide) (by decide)
      (by norm_num [set_arraysRaw, computeVirtualRaw, storeRaw, mkArray, isRectangular,
        convolveRaw, flatSize, addBroadcast]),
    no_validation_only_mechanical_errors.2⟩

/-- C9: the 1D analyzer returns exactly the sorted, duplicate-free
intersection of the HV and VH virtual position sets after rounding each
position to two decimal places; it depends only on the HV and VH channels,
and the rounding is to the nearest hundredth (within 1/200), not floor
binning. -/
theorem mimo_hv_vh_intersection :
    (∀ (s : Mimo) (x : ℚ),
        x ∈ analyze1 s
          ↔ ((∃ p ∈ s.v_hv, round2 p = x) ∧ (∃ p ∈ s.v_vh, round2 p = x))) ∧
    (∀ s : Mimo, List.Sorted (· ≤ ·) (analyze1 s) ∧ (analyze1 s).Nodup) ∧
    (∀ s s' : Mimo, s.v_hv = s'.v_hv → s.v_vh = s'.v_vh → analyze1 s = analyze1 s') ∧
    (∀ q : ℚ, |q - round2 q| ≤ 1 / 200) := by
  refine ⟨fun s x => mem_analyze1, fun s => ⟨analyze1_sorted s, analyze1_nodup s⟩,
    fun s s' h1 h2 => ?_, round2_near⟩
  rw [analyze1, analyze1, h1, h2]

/-- Witness for C9: in the 1D demo state HV and VH both contain the origin,
which therefore appears in the analyzer's output. -/
theorem mimo_hv_vh_intersection_witness :
    (0 : ℚ) ∈ analyze1 demoM :=
  (mimo_hv_vh_intersection.1 demoM 0).mpr
    ⟨⟨0, by rw [demoM_v_hv]; simp, round2_zero⟩,
      ⟨0, by rw [demoM_v_vh]; simp, round2_zero⟩⟩

end Pomaar
